import Mathlib

/-!
Verification of the contentful-batch-migrator migration engine.

This file shallowly embeds the core logic of the repository:
  * `bin/split.js`   — the relationship partitioner (`splitExport`,
    `getAssetReferencesFromEntry`);
  * `bin/import.js`  — the migration driver (`importAllBatches` retry loop,
    `importBatch` call structure, `saveState`);
  * `bin/rateLimiter.js` — the dual token-bucket rate limiter;
  * `bin/resume.js`  — the resume coordinator (`resumeImport` decision);
  * `bin/cleanup-drafts.js` — the draft-cleanup link scrubbing.

JavaScript objects are modelled as Lean structures, JS arrays as `List`,
JS `Set`/`Map` membership as list membership, JS numbers used for token
arithmetic as `ℚ` (exact arithmetic standing in for IEEE doubles), and
timestamps as `ℚ` milliseconds.  Asynchronous sequencing is modelled by
explicit state passing; wall-clock time is an explicit parameter.
-/

namespace Migrator

/-! ## Field-value trees and asset-reference traversal (`bin/split.js` 38–60)

An entry's `fields` block is a JSON tree.  A Contentful link is the object
`{sys: {type: "Link", linkType, id}}`; the splitter's `traverseFields`
recognises it structurally, so we give links their own constructor.  All
other leaf values are collapsed into `.scalar` (the traversal ignores
them). -/

inductive JVal : Type where
  /-- any non-object, non-array, non-link JSON value -/
  | scalar : JVal
  /-- `{sys: {type: "Link", linkType: lt, id: i}}` -/
  | link (lt : String) (i : String) : JVal
  /-- a JSON array -/
  | arr (items : List JVal) : JVal
  /-- any other JSON object, as an association list of its values -/
  | obj (kvs : List (String × JVal)) : JVal

mutual

/-- `traverseFields` of `getAssetReferencesFromEntry`: collect the ids of all
`Link`s of linkType `Asset`, recursing through arrays and object values at
arbitrary depth.  (The source accumulates into a `Set`; we return the list of
hits, and only ever use membership in it.) -/
def collectAssetLinks : JVal → List String
  | .scalar => []
  | .link lt i => if lt = "Asset" then [i] else []
  | .arr items => collectAssetLinksList items
  | .obj kvs => collectAssetLinksKVs kvs

def collectAssetLinksList : List JVal → List String
  | [] => []
  | v :: vs => collectAssetLinks v ++ collectAssetLinksList vs

def collectAssetLinksKVs : List (String × JVal) → List String
  | [] => []
  | (_, v) :: kvs => collectAssetLinks v ++ collectAssetLinksKVs kvs

end

/-- An entry's `fields` block: field id → locale code → value. -/
def Fields : Type := List (String × List (String × JVal))

/-- An entry of the export: `sys.id`, `sys.contentType.sys.id`, and fields. -/
structure Entry where
  id : String
  contentTypeId : String
  fields : List (String × List (String × JVal))

/-- An asset of the export (only its id and its per-locale file block are
inspected by the partitioner). -/
structure Asset where
  id : String
deriving DecidableEq

/-- `getAssetReferencesFromEntry(entry)`: all asset-link ids occurring
anywhere in the entry's fields tree. -/
def getAssetReferencesFromEntry (e : Entry) : List String :=
  collectAssetLinksKVs (e.fields.map (fun fl => (fl.1, JVal.obj (fl.2))))

/-! ## The export document and the partitioner (`bin/split.js` 63–273) -/

/-- The source export document (`exported-space.json`).  Content types,
tags, locales, editor interfaces and webhooks are opaque to the
partitioner, so they are carried as opaque id lists. -/
structure ExportData where
  contentTypes : List String
  entries : List Entry
  assets : List Asset
  tags : List String
  locales : List String
  editorInterfaces : List String
  webhooks : List String

/-- One output batch document (same top-level shape as the export). -/
structure BatchData where
  contentTypes : List String
  tags : List String
  locales : List String
  editorInterfaces : List String
  webhooks : List String
  entries : List Entry
  assets : List Asset

/-- `for (let i = 0; i < assets.length; i += batchSize) push(slice(i, i+batchSize))`:
split a list into consecutive chunks of size `n` (last chunk may be
smaller).  For `n = 0` the JS loop never terminates; we return `[]` and
only ever use the function under `0 < n`. -/
def chunkListGo (fuel : ℕ) (n : ℕ) (l : List α) : List (List α) :=
  match fuel with
  | 0 => []
  | fuel + 1 =>
    if n = 0 ∨ l.isEmpty then []
    else l.take n :: chunkListGo fuel n (l.drop n)

/-- The loop body executes at most `l.length` times (each iteration drops
`n ≥ 1` elements), so `l.length + 1` units of fuel always suffice. -/
def chunkList (n : ℕ) (l : List α) : List (List α) :=
  chunkListGo (l.length + 1) n l

lemma chunkListGo_fuel_irrel (fuel fuel' n : ℕ) (l : List α)
    (h : l.length < fuel) (h' : l.length < fuel') :
    chunkListGo fuel n l = chunkListGo fuel' n l := by
  induction fuel generalizing fuel' l with
  | zero => omega
  | succ fuel ih =>
    match fuel', h' with
    | fuel' + 1, h' =>
      simp only [chunkListGo]
      split
      · rfl
      · rename_i hcond
        push_neg at hcond
        have hn : 0 < n := Nat.pos_of_ne_zero hcond.1
        have hl : l ≠ [] := by
          intro he; exact absurd (by simp [he]) hcond.2
        have hlen : 0 < l.length := List.length_pos.mpr hl
        have hd : (l.drop n).length < fuel := by
          simp only [List.length_drop]; omega
        have hd' : (l.drop n).length < fuel' := by
          simp only [List.length_drop]; omega
        rw [ih _ _ hd hd']

/-- The defining equation of the chunking loop. -/
lemma chunkList_eq (n : ℕ) (l : List α) :
    chunkList n l =
      if n = 0 ∨ l.isEmpty then [] else l.take n :: chunkList n (l.drop n) := by
  rw [chunkList, chunkListGo]
  split
  · rfl
  · rename_i hcond
    push_neg at hcond
    have hn : 0 < n := Nat.pos_of_ne_zero hcond.1
    have hl : l ≠ [] := by
      intro he; exact absurd (by simp [he]) hcond.2
    have hlen : 0 < l.length := List.length_pos.mpr hl
    rw [chunkList, chunkListGo_fuel_irrel]
    · simp only [List.length_drop]; omega
    · omega

/-- The `entryToAssets` map of `splitExport` (lines 89–102): keyed by
`entry.sys.id`, so when two entries share an id the later `set` overwrites
the earlier one.  `entryToAssets.get(id) || []` is lookup of the last
entry with that id, defaulting to `[]`. -/
def entryToAssets (entries : List Entry) (id : String) : List String :=
  match entries.reverse.find? (fun e => e.id = id) with
  | some e => getAssetReferencesFromEntry e
  | none => []

/-- Does entry `e` reference at least one asset of chunk `c`?
(`entryAssets.some(assetId => batchAssetIds.has(assetId))`, lines 141–143,
with `entryAssets = entryToAssets.get(entry.sys.id) || []`). -/
def entryMeetsChunk (entries : List Entry) (e : Entry) (c : List Asset) : Bool :=
  (entryToAssets entries e.id).any (fun aid => c.any (fun a => a.id = aid))

/-- The batch loop of `splitExport` (lines 124–147): for each asset chunk in
order, claim the entries not yet in `processedEntries` that reference an
asset of the chunk, then mark them processed.  Returns the per-chunk entry
lists. -/
def claimEntries (entries : List Entry) :
    List (List Asset) → List String → List (List Entry)
  | [], _ => []
  | c :: cs, processed =>
    let batchEntries := entries.filter
      (fun e => !processed.contains e.id && entryMeetsChunk entries e c)
    batchEntries ::
      claimEntries entries cs (processed ++ batchEntries.map Entry.id)

/-- The final `processedEntries` set after the batch loop. -/
def processedAfter (entries : List Entry) :
    List (List Asset) → List String → List String
  | [], processed => processed
  | c :: cs, processed =>
    let batchEntries := entries.filter
      (fun e => !processed.contains e.id && entryMeetsChunk entries e c)
    processedAfter entries cs (processed ++ batchEntries.map Entry.id)

/-- `splitExport`: the full partition.  Asset chunk `i` becomes batch `i+1`
(content model on batch 1 only, lines 153–161); entries never claimed go
into one final overflow batch (lines 206–228), created only when there is
at least one such entry. -/
def splitExport (batchSize : ℕ) (x : ExportData) : List BatchData :=
  let assetBatches := chunkList batchSize x.assets
  let entryBatches := claimEntries x.entries assetBatches []
  let processed := processedAfter x.entries assetBatches []
  let chunkBatchData :=
    (List.zip assetBatches entryBatches).enum.map (fun p =>
      { contentTypes := if p.1 = 0 then x.contentTypes else []
        tags := if p.1 = 0 then x.tags else []
        locales := if p.1 = 0 then x.locales else []
        editorInterfaces := if p.1 = 0 then x.editorInterfaces else []
        webhooks := if p.1 = 0 then x.webhooks else []
        entries := p.2.2
        assets := p.2.1 : BatchData })
  let orphanedEntries := x.entries.filter (fun e => !processed.contains e.id)
  chunkBatchData ++
    (if orphanedEntries.isEmpty then []
     else [{ contentTypes := [], tags := [], locales := []
             editorInterfaces := [], webhooks := []
             entries := orphanedEntries, assets := [] }])

/-- The entry-id set of a batch. -/
def batchEntryIds (b : BatchData) : List String := b.entries.map Entry.id

/-! ### Lemmas about the claim loop -/

lemma claimEntries_length (entries : List Entry) (cs : List (List Asset))
    (p : List String) : (claimEntries entries cs p).length = cs.length := by
  induction cs generalizing p with
  | nil => rfl
  | cons c cs ih => simp only [claimEntries, List.length_cons, ih]

lemma mem_of_mem_claimEntries {entries : List Entry} {cs : List (List Asset)}
    {p : List String} {b : List Entry} {e : Entry}
    (hb : b ∈ claimEntries entries cs p) (he : e ∈ b) :
    e ∈ entries ∧ e.id ∉ p := by
  induction cs generalizing p with
  | nil => simp [claimEntries] at hb
  | cons c cs ih =>
    simp only [claimEntries, List.mem_cons] at hb
    rcases hb with rfl | hb
    · have h := List.mem_filter.mp he
      refine ⟨h.1, ?_⟩
      have := h.2
      simp only [Bool.and_eq_true, Bool.not_eq_true'] at this
      intro hmem
      have : p.contains e.id = true := List.elem_iff.mpr hmem
      simp_all
    · have h := ih hb
      exact ⟨h.1, fun hp => h.2 (by simp [hp])⟩

lemma processedAfter_eq (entries : List Entry) (cs : List (List Asset))
    (p : List String) :
    processedAfter entries cs p =
      p ++ ((claimEntries entries cs p).map (fun b => b.map Entry.id)).flatten := by
  induction cs generalizing p with
  | nil => simp [processedAfter, claimEntries]
  | cons c cs ih =>
    simp only [processedAfter, claimEntries, List.map_cons, List.flatten_cons]
    rw [ih, List.append_assoc]

lemma claimEntries_pairwise (entries : List Entry) (cs : List (List Asset))
    (p : List String) :
    ((claimEntries entries cs p).map (fun b => b.map Entry.id)).Pairwise
      List.Disjoint := by
  induction cs generalizing p with
  | nil => simp [claimEntries]
  | cons c cs ih =>
    simp only [claimEntries, List.map_cons, List.pairwise_cons]
    refine ⟨?_, ih _⟩
    intro l hl id hid hidl
    obtain ⟨b, hb, rfl⟩ := List.mem_map.mp hl
    obtain ⟨e, he, rfl⟩ := List.mem_map.mp hidl
    exact (mem_of_mem_claimEntries hb he).2 (List.mem_append.mpr (Or.inr hid))

lemma claimed_meets {entries : List Entry} {cs : List (List Asset)}
    {p : List String} {i : ℕ} {b : List Entry}
    (h : (claimEntries entries cs p)[i]? = some b) :
    ∃ c, cs[i]? = some c ∧ ∀ e ∈ b, entryMeetsChunk entries e c = true := by
  induction cs generalizing p i with
  | nil => simp [claimEntries] at h
  | cons c cs ih =>
    match i with
    | 0 =>
      simp only [claimEntries, List.getElem?_cons_zero, Option.some.injEq] at h
      subst h
      exact ⟨c, by simp, fun e he => by
        have := (List.mem_filter.mp he).2
        simp only [Bool.and_eq_true] at this
        exact this.2⟩
    | i + 1 =>
      simp only [claimEntries, List.getElem?_cons_succ] at h
      obtain ⟨c', hc', hmeets⟩ := ih h
      exact ⟨c', by simpa using hc', hmeets⟩

lemma earlier_not_meets {entries : List Entry} {cs : List (List Asset)}
    {p : List String} {i : ℕ} {b : List Entry}
    (h : (claimEntries entries cs p)[i]? = some b) {e : Entry} (he : e ∈ b) :
    ∀ j, j < i → ∀ cj, cs[j]? = some cj →
      entryMeetsChunk entries e cj = false := by
  induction cs generalizing p i with
  | nil => simp [claimEntries] at h
  | cons c cs ih =>
    intro j hj cj hcj
    cases i with
    | zero => omega
    | succ i =>
      simp only [claimEntries, List.getElem?_cons_succ] at h
      have hmem := mem_of_mem_claimEntries (List.getElem?_mem h) he
      cases j with
      | zero =>
        simp only [List.getElem?_cons_zero, Option.some.injEq] at hcj
        subst hcj
        by_contra hne
        have hmeets : entryMeetsChunk entries e c = true := by
          cases hx : entryMeetsChunk entries e c
          · exact absurd hx hne
          · rfl
        have hnotp : e.id ∉ p := fun hp => hmem.2 (by simp [hp])
        have hin : e ∈ entries.filter
            (fun e' => !p.contains e'.id && entryMeetsChunk entries e' c) := by
          refine List.mem_filter.mpr ⟨hmem.1, ?_⟩
          simp only [Bool.and_eq_true, Bool.not_eq_true']
          refine ⟨?_, hmeets⟩
          cases hc : p.contains e.id
          · rfl
          · exact absurd (List.elem_iff.mp hc) hnotp
        exact hmem.2 (by
          simp only [List.mem_append]
          right
          exact List.mem_map.mpr ⟨e, hin, rfl⟩)
      | succ j =>
        exact ih h j (by omega) cj (by simpa using hcj)

/-- `entryMeetsChunk` only depends on the entry's id (the reference list is
looked up in the id-keyed `entryToAssets` map). -/
lemma entryMeetsChunk_congr {entries : List Entry} {e e' : Entry}
    (h : e'.id = e.id) (c : List Asset) :
    entryMeetsChunk entries e' c = entryMeetsChunk entries e c := by
  simp [entryMeetsChunk, h]

/-! ### Structural lemmas about `splitExport` -/

/-- The per-batch entry lists of `splitExport` are exactly the claimed lists
followed by the overflow list (when non-empty). -/
lemma splitExport_map_entries (batchSize : ℕ) (x : ExportData) :
    (splitExport batchSize x).map BatchData.entries =
      claimEntries x.entries (chunkList batchSize x.assets) [] ++
      (if (x.entries.filter (fun e =>
            !(processedAfter x.entries (chunkList batchSize x.assets) []).contains e.id)).isEmpty
       then []
       else [x.entries.filter (fun e =>
            !(processedAfter x.entries (chunkList batchSize x.assets) []).contains e.id)]) := by
  have hlen : (claimEntries x.entries (chunkList batchSize x.assets) []).length
      ≤ (chunkList batchSize x.assets).length :=
    le_of_eq (claimEntries_length _ _ _)
  simp only [splitExport, List.map_append]
  congr 1
  · rw [List.map_map]
    show List.map (fun p : ℕ × (List Asset × List Entry) => p.2.2) _ = _
    have h1 : (fun p : ℕ × (List Asset × List Entry) => p.2.2) =
        (fun q : List Asset × List Entry => q.2) ∘ Prod.snd := rfl
    rw [h1, ← List.map_map, List.enum_map_snd, List.map_snd_zip _ _ hlen]
  · split <;> simp

/-- Every batch of `splitExport` after the first carries empty content-model
collections (the `batchIndex === 0` conditionals of lines 153–161 and the
always-empty overflow batch of lines 215–223). -/
lemma splitExport_getElem_pos {batchSize : ℕ} {x : ExportData} {i : ℕ}
    {b : BatchData} (hi : 0 < i) (h : (splitExport batchSize x)[i]? = some b) :
    b.contentTypes = [] ∧ b.tags = [] ∧ b.locales = [] ∧
      b.editorInterfaces = [] ∧ b.webhooks = [] := by
  simp only [splitExport] at h
  rw [List.getElem?_append] at h
  split at h
  · rw [List.getElem?_map, List.getElem?_enum] at h
    match hz : ((chunkList batchSize x.assets).zip
        (claimEntries x.entries (chunkList batchSize x.assets) []))[i]? with
    | none => rw [hz] at h; simp at h
    | some q =>
      rw [hz] at h
      simp only [Option.map_some', Option.some.injEq] at h
      subst h
      have : i ≠ 0 := Nat.pos_iff_ne_zero.mp hi
      simp [this]
  · split at h
    · simp at h
    · match i - _ , h with
      | 0, h =>
        simp only [List.getElem?_cons_zero, Option.some.injEq] at h
        subst h
        exact ⟨rfl, rfl, rfl, rfl, rfl⟩
      | n + 1, h => simp at h

/-- When there is at least one asset (and a sensible batch size), the first
batch exists and carries the full content-model payload, and its asset slice
is the first `batchSize` assets. -/
lemma splitExport_head {batchSize : ℕ} {x : ExportData}
    (hbs : 0 < batchSize) (ha : x.assets ≠ []) :
    ∃ b rest, splitExport batchSize x = b :: rest ∧
      b.contentTypes = x.contentTypes ∧ b.tags = x.tags ∧
      b.locales = x.locales ∧ b.editorInterfaces = x.editorInterfaces ∧
      b.webhooks = x.webhooks ∧ b.assets = x.assets.take batchSize := by
  have hchunk : chunkList batchSize x.assets =
      x.assets.take batchSize :: chunkList batchSize (x.assets.drop batchSize) := by
    rw [chunkList_eq]
    have hcond : ¬(batchSize = 0 ∨ x.assets.isEmpty = true) := by
      push_neg
      exact ⟨Nat.pos_iff_ne_zero.mp hbs, by simp [List.isEmpty_eq_false, ha]⟩
    rw [if_neg hcond]
  simp only [splitExport, hchunk, claimEntries]
  exact ⟨_, _, rfl, rfl, rfl, rfl, rfl, rfl, rfl⟩

/-- When the orphaned-entries list is non-empty, the overflow batch is a
batch of the output. -/
lemma orphan_batch_mem {batchSize : ℕ} {x : ExportData}
    (h : x.entries.filter (fun e =>
        !(processedAfter x.entries (chunkList batchSize x.assets) []).contains e.id) ≠ []) :
    ({ contentTypes := [], tags := [], locales := []
       editorInterfaces := [], webhooks := []
       entries := x.entries.filter (fun e =>
         !(processedAfter x.entries (chunkList batchSize x.assets) []).contains e.id)
       assets := [] } : BatchData) ∈ splitExport batchSize x := by
  simp only [splitExport]
  rw [List.mem_append]
  right
  have hne : (x.entries.filter (fun e =>
      !(processedAfter x.entries (chunkList batchSize x.assets) []).contains e.id)).isEmpty
      = false := List.isEmpty_eq_false.mpr h
  rw [hne]
  simp

/-- C1.  Partition completeness: the union over all output batches of the
batches' entry-id sets equals the source entry-id set; the batches' entry-id
sets are pairwise disjoint; an entry appearing in asset-chunk batch `i`
references an asset of chunk `i` and of no earlier chunk (first-claim-wins);
and entries referencing no batched asset all land in the overflow batch. -/
theorem splitExport_partition_complete (batchSize : ℕ) (x : ExportData)
    (hbs : 0 < batchSize) :
    (∀ id, (∃ b ∈ splitExport batchSize x, id ∈ batchEntryIds b) ↔
        id ∈ x.entries.map Entry.id)
    ∧ ((splitExport batchSize x).map batchEntryIds).Pairwise List.Disjoint
    ∧ (∀ (i : ℕ) (b : List Entry),
        (claimEntries x.entries (chunkList batchSize x.assets) [])[i]? = some b →
        ∀ e ∈ b,
          (∃ c, (chunkList batchSize x.assets)[i]? = some c ∧
            entryMeetsChunk x.entries e c = true) ∧
          (∀ (j : ℕ) (cj : List Asset), j < i →
            (chunkList batchSize x.assets)[j]? = some cj →
            entryMeetsChunk x.entries e cj = false))
    ∧ (∀ e ∈ x.entries,
        (∀ c ∈ chunkList batchSize x.assets,
          entryMeetsChunk x.entries e c = false) →
        ∃ b ∈ splitExport batchSize x, e ∈ b.entries ∧ b.assets = [] ∧
          b.contentTypes = []) := by
  set cs := chunkList batchSize x.assets with hcs
  set ebs := claimEntries x.entries cs [] with hebs
  set pa := processedAfter x.entries cs [] with hpa
  set orphans := x.entries.filter (fun e => !pa.contains e.id) with horphans
  have hpa_flatten : pa = (ebs.map (fun b => b.map Entry.id)).flatten := by
    rw [hpa, processedAfter_eq]
    simp [hebs]
  have hmap := splitExport_map_entries batchSize x
  rw [← hcs, ← hebs, ← hpa, ← horphans] at hmap
  have hmem_pa : ∀ {id : String}, id ∈ pa →
      ∃ bl ∈ ebs, id ∈ bl.map Entry.id := by
    intro id hid
    rw [hpa_flatten] at hid
    obtain ⟨ids, hids, hmem⟩ := List.mem_flatten.mp hid
    obtain ⟨bl, hbl, rfl⟩ := List.mem_map.mp hids
    exact ⟨bl, hbl, hmem⟩
  have horph_notpa : ∀ {e : Entry}, e ∈ orphans → e.id ∉ pa := by
    intro e he hid
    have h2 := (List.mem_filter.mp he).2
    simp at h2
    exact h2 hid
  refine ⟨?_, ?_, ?_, ?_⟩
  · -- union of batch entry ids = source entry ids
    intro id
    constructor
    · rintro ⟨b, hb, hid⟩
      have hbe : b.entries ∈ (splitExport batchSize x).map BatchData.entries :=
        List.mem_map.mpr ⟨b, hb, rfl⟩
      rw [hmap] at hbe
      obtain ⟨e, he, rfl⟩ := List.mem_map.mp hid
      rcases List.mem_append.mp hbe with hbe | hbe
      · exact List.mem_map.mpr ⟨e, (mem_of_mem_claimEntries hbe he).1, rfl⟩
      · cases hor : orphans.isEmpty
        · rw [hor] at hbe
          simp only [Bool.false_eq_true, if_false, List.mem_singleton] at hbe
          rw [hbe] at he
          exact List.mem_map.mpr ⟨e, (List.mem_filter.mp he).1, rfl⟩
        · rw [hor] at hbe
          simp at hbe
    · intro hid
      obtain ⟨e, he, rfl⟩ := List.mem_map.mp hid
      by_cases hmem : e.id ∈ pa
      · obtain ⟨bl, hbl, hin⟩ := hmem_pa hmem
        have : bl ∈ (splitExport batchSize x).map BatchData.entries := by
          rw [hmap]
          exact List.mem_append.mpr (Or.inl hbl)
        obtain ⟨b, hb, hbeq⟩ := List.mem_map.mp this
        exact ⟨b, hb, by rw [batchEntryIds, hbeq]; exact hin⟩
      · have horph : e ∈ orphans := by
          refine List.mem_filter.mpr ⟨he, ?_⟩
          simp only [Bool.not_eq_true']
          cases hc : pa.contains e.id
          · rfl
          · exact absurd (List.elem_iff.mp hc) hmem
        have hne : orphans ≠ [] := List.ne_nil_of_mem horph
        refine ⟨_, orphan_batch_mem (by rw [← hcs, ← hpa, ← horphans]; exact hne), ?_⟩
        exact List.mem_map.mpr ⟨e, horph, rfl⟩
  · -- pairwise disjoint entry-id sets
    have hcomp : (splitExport batchSize x).map batchEntryIds =
        ((splitExport batchSize x).map BatchData.entries).map
          (fun l => l.map Entry.id) := by
      rw [List.map_map]; rfl
    rw [hcomp, hmap, List.map_append, List.pairwise_append]
    refine ⟨claimEntries_pairwise _ _ _, ?_, ?_⟩
    · split <;> simp
    · intro a ha b' hb' id hida hidb
      obtain ⟨bl, hbl, rfl⟩ := List.mem_map.mp ha
      have hidpa : id ∈ pa := by
        rw [hpa_flatten]
        exact List.mem_flatten.mpr ⟨bl.map Entry.id, List.mem_map.mpr ⟨bl, hbl, rfl⟩, hida⟩
      have hb'' : b' = orphans.map Entry.id := by
        cases hor : orphans.isEmpty
        · rw [hor] at hb'
          simp only [Bool.false_eq_true, if_false, List.map_cons, List.map_nil,
            List.mem_singleton] at hb'
          exact hb'
        · rw [hor] at hb'
          simp at hb'
      rw [hb''] at hidb
      obtain ⟨e, he, rfl⟩ := List.mem_map.mp hidb
      exact horph_notpa he hidpa
  · -- first-claim-wins for asset-chunk batches
    intro i b hb e he
    obtain ⟨c, hc, hmeets⟩ := claimed_meets hb
    exact ⟨⟨c, hc, hmeets e he⟩, fun j cj hj hcj => earlier_not_meets hb he j hj cj hcj⟩
  · -- overflow batch collects the never-claimed entries
    intro e he hnever
    have hnotpa : e.id ∉ pa := by
      intro hid
      obtain ⟨bl, hbl, hin⟩ := hmem_pa hid
      obtain ⟨e', he', hide⟩ := List.mem_map.mp hin
      obtain ⟨i, hi⟩ := List.mem_iff_getElem?.mp hbl
      obtain ⟨c, hc, hm⟩ := claimed_meets hi
      have hm' := hm e' he'
      rw [entryMeetsChunk_congr hide] at hm'
      exact absurd hm' (by simp [hnever c (List.getElem?_mem hc)])
    have horph : e ∈ orphans := by
      refine List.mem_filter.mpr ⟨he, ?_⟩
      simp only [Bool.not_eq_true']
      cases hc : pa.contains e.id
      · rfl
      · exact absurd (List.elem_iff.mp hc) hnotpa
    have hne : orphans ≠ [] := List.ne_nil_of_mem horph
    exact ⟨_, orphan_batch_mem (by rw [← hcs, ← hpa, ← horphans]; exact hne),
      horph, rfl, rfl⟩

/-- `chunkList` of an empty list is empty. -/
lemma chunkList_nil (n : ℕ) : chunkList n ([] : List α) = [] := by
  rw [chunkList_eq]; simp

/-- With an empty assets collection there are no asset-chunk batches: the
output is just the overflow batch (or nothing). -/
lemma splitExport_assets_nil {batchSize : ℕ} {x : ExportData}
    (ha : x.assets = []) (b : BatchData) (hb : b ∈ splitExport batchSize x) :
    b.contentTypes = [] ∧ b.tags = [] ∧ b.locales = [] ∧
      b.editorInterfaces = [] ∧ b.webhooks = [] := by
  have hch : chunkList batchSize x.assets = [] := by rw [ha, chunkList_nil]
  simp only [splitExport, hch, List.zip_nil_left, List.enum_nil, List.map_nil,
    List.nil_append] at hb
  split at hb
  · simp at hb
  · rw [List.mem_singleton] at hb
    subst hb
    exact ⟨rfl, rfl, rfl, rfl, rfl⟩

/-- C2 (amended).  Every batch after the first has empty contentTypes, tags,
locales, editorInterfaces and webhooks collections; when the assets
collection is non-empty the first batch carries the full content-model
payload; and consequently the number of batches with a non-empty
content-types collection is 1 when both the assets and the contentTypes
collections of the export are non-empty, and 0 otherwise (in particular,
for an export with no assets the content model is dropped entirely). -/
theorem splitExport_content_model_singularity (batchSize : ℕ) (x : ExportData)
    (hbs : 0 < batchSize) :
    (∀ (i : ℕ) (b : BatchData), 0 < i → (splitExport batchSize x)[i]? = some b →
      b.contentTypes = [] ∧ b.tags = [] ∧ b.locales = [] ∧
        b.editorInterfaces = [] ∧ b.webhooks = [])
    ∧ (x.assets ≠ [] → ∃ b rest, splitExport batchSize x = b :: rest ∧
        b.contentTypes = x.contentTypes ∧ b.tags = x.tags ∧
        b.locales = x.locales ∧ b.editorInterfaces = x.editorInterfaces ∧
        b.webhooks = x.webhooks)
    ∧ ((splitExport batchSize x).countP (fun b => !b.contentTypes.isEmpty) =
        if x.assets ≠ [] ∧ x.contentTypes ≠ [] then 1 else 0) := by
  refine ⟨fun i b hi hb => splitExport_getElem_pos hi hb, ?_, ?_⟩
  · intro ha
    obtain ⟨b, rest, heq, h1, h2, h3, h4, h5, _⟩ := splitExport_head hbs ha
    exact ⟨b, rest, heq, h1, h2, h3, h4, h5⟩
  · by_cases ha : x.assets = []
    · rw [if_neg (by simp [ha])]
      rw [List.countP_eq_zero]
      intro b hb
      have := (splitExport_assets_nil ha b hb).1
      simp [this]
    · obtain ⟨b, rest, heq, h1, _, _, _, _, _⟩ := splitExport_head hbs ha
      have hrest : ∀ b' ∈ rest, b'.contentTypes = [] := by
        intro b' hb'
        obtain ⟨i, hi⟩ := List.mem_iff_getElem?.mp hb'
        have : (splitExport batchSize x)[i + 1]? = some b' := by
          rw [heq]; simpa using hi
        exact (splitExport_getElem_pos (Nat.succ_pos i) this).1
      have hcount0 : rest.countP (fun b => !b.contentTypes.isEmpty) = 0 := by
        rw [List.countP_eq_zero]
        intro b' hb'
        simp [hrest b' hb']
      rw [heq, List.countP_cons, hcount0]
      by_cases hct : x.contentTypes = []
      · have hb1 : (!b.contentTypes.isEmpty) = false := by simp [h1, hct]
        rw [hb1]
        simp [hct]
      · have hb1 : (!b.contentTypes.isEmpty) = true := by
          simp [h1, List.isEmpty_eq_false.mpr hct]
        rw [hb1]
        simp [ha, hct]

/-! ### Concrete fixtures for witnesses and counterexamples -/

/-- A sample entry whose single field value links to asset `a` (locale `en`). -/
def entryLinking (i a : String) : Entry :=
  ⟨i, "ct", [("f", [("en", JVal.link "Asset" a)])]⟩

/-- A sample entry with no asset references. -/
def entryPlain (i : String) : Entry :=
  ⟨i, "ct", [("f", [("en", JVal.scalar)])]⟩

/-- A sample export: three assets, one entry referencing the third asset,
one entry referencing nothing. -/
def exSample : ExportData :=
  { contentTypes := ["ct"], entries := [entryLinking "e1" "a3", entryPlain "e2"]
    assets := [⟨"a1"⟩, ⟨"a2"⟩, ⟨"a3"⟩]
    tags := ["t"], locales := ["en"], editorInterfaces := ["ei"], webhooks := [] }

/-- A sample export with a content type but no assets: the splitter emits
only the overflow batch, and the content model is dropped. -/
def exNoAssets : ExportData :=
  { contentTypes := ["ct"], entries := [entryPlain "e2"], assets := []
    tags := [], locales := [], editorInterfaces := [], webhooks := [] }

/-- C1 witness: the partition-completeness theorem applied to `exSample`
with batch size 2. -/
theorem splitExport_partition_complete_witness :
    0 < 2 ∧
    ((∃ b ∈ splitExport 2 exSample, "e1" ∈ batchEntryIds b) ↔
      "e1" ∈ exSample.entries.map Entry.id) :=
  ⟨by decide, (splitExport_partition_complete 2 exSample (by decide)).1 "e1"⟩

/-- C2 counterexample: for `exNoAssets` (non-empty contentTypes, empty
assets) the splitter produces one batch and no batch has a non-empty
content-types collection, refuting "exactly one output batch — the first —
has a non-empty content-types collection" as quantified over all exports. -/
theorem splitExport_content_model_counterexample :
    exNoAssets.contentTypes ≠ [] ∧ (splitExport 2 exNoAssets).length = 1 ∧
    (splitExport 2 exNoAssets).countP (fun b => !b.contentTypes.isEmpty) = 0 := by
  decide

/-- C2 witness: the amended content-model-singularity theorem applied to
`exSample` with batch size 2. -/
theorem splitExport_content_model_singularity_witness :
    0 < 2 ∧
    (splitExport 2 exSample).countP (fun b => !b.contentTypes.isEmpty) =
      if exSample.assets ≠ [] ∧ exSample.contentTypes ≠ [] then 1 else 0 :=
  ⟨by decide, (splitExport_content_model_singularity 2 exSample (by decide)).2.2⟩

/-! ## Migration driver state and retry loop (`bin/import.js`)

`loadState` (lines 31–41) initialises
`{startedAt, completedBatches: [], failedBatches: [], currentBatch: null}`;
`importAllBatches` (lines 378–499) walks the batches, persisting the state
after every mutation.  A batch attempt is abstracted by its outcome:
`none` = the attempt returned normally, `some msg` = it threw an error with
that message (`error.message`). -/

/-- One element of `state.failedBatches` (lines 459–463). -/
structure FailedRecord where
  batch : String
  error : String
  timestamp : String
deriving DecidableEq, Repr

/-- The persisted `import-state.json` document. -/
structure ImportState where
  startedAt : String
  completedBatches : List String
  failedBatches : List FailedRecord
  currentBatch : Option String
deriving DecidableEq, Repr

/-- The `while (retries <= maxRetries && !success)` loop (lines 429–471),
viewed from attempt number `k` with `remaining` retries still allowed.
Returns the number of attempts performed and `none` on success, or the
error message of the final failed attempt. -/
def attemptLoop (outcome : ℕ → Option String) (k : ℕ) : ℕ → ℕ × Option String
  | 0 =>
    match outcome k with
    | none => (1, none)
    | some e => (1, some e)
  | remaining + 1 =>
    match outcome k with
    | none => (1, none)
    | some _ =>
      let r := attemptLoop outcome (k + 1) remaining
      (r.1 + 1, r.2)

/-- Process one (not-yet-completed) batch: mark it in flight and persist
(lines 423–424), run the retry loop, then on success push the batch to
`completedBatches`, clear `currentBatch` and persist (lines 441–443), or on
retry exhaustion push a `{batch, error, timestamp}` record to
`failedBatches`, clear `currentBatch` and persist (lines 459–465).
Returns the final state, the persisted snapshots in order, and the number
of attempts made. -/
def processBatch (maxRetries : ℕ) (outcome : ℕ → Option String) (ts : String)
    (st : ImportState) (batchNum : String) :
    ImportState × List ImportState × ℕ :=
  let st1 : ImportState := { st with currentBatch := some batchNum }
  let r := attemptLoop outcome 0 maxRetries
  match r.2 with
  | none =>
    let st2 : ImportState :=
      { st1 with completedBatches := st1.completedBatches ++ [batchNum]
                 currentBatch := none }
    (st2, [st1, st2], r.1)
  | some e =>
    let st2 : ImportState :=
      { st1 with failedBatches := st1.failedBatches ++ [⟨batchNum, e, ts⟩]
                 currentBatch := none }
    (st2, [st1, st2], r.1)

/-- The batch loop of `importAllBatches` (lines 401–472) over the list of
batch numbers, skipping batches already in `completedBatches` (line 406).
Returns the final state, the persisted snapshots, and the per-batch attempt
counts of the batches actually attempted. -/
def importAllBatches (maxRetries : ℕ) (outcomes : String → ℕ → Option String)
    (ts : String) (batchNums : List String) (st : ImportState) :
    ImportState × List ImportState × List (String × ℕ) :=
  match batchNums with
  | [] => (st, [], [])
  | bn :: rest =>
    if st.completedBatches.contains bn then
      importAllBatches maxRetries outcomes ts rest st
    else
      let p := processBatch maxRetries (outcomes bn) ts st bn
      let r := importAllBatches maxRetries outcomes ts rest p.1
      (r.1, p.2.1 ++ r.2.1, (bn, p.2.2) :: r.2.2)

/-- When every attempt fails, the loop performs exactly `maxRetries + 1`
attempts and reports the last attempt's error. -/
lemma attemptLoop_all_fail (outcome : ℕ → Option String) (m : ℕ → String)
    (h : ∀ j, outcome j = some (m j)) (k : ℕ) (remaining : ℕ) :
    attemptLoop outcome k remaining = (remaining + 1, some (m (k + remaining))) := by
  induction remaining generalizing k with
  | zero => simp [attemptLoop, h k]
  | succ remaining ih =>
    simp only [attemptLoop, h k, ih (k + 1)]
    have harith : k + 1 + remaining = k + (remaining + 1) := by omega
    rw [harith]

/-- C3.  Retry ceiling: for a batch `bn` (not already completed) whose
batch import throws on every attempt, the driver attempts it exactly
`maxRetries + 1` times, then persists the in-flight marker cleared and a
`{batch, error message, timestamp}` record appended to `failedBatches`, and
continues with the remaining batches from that state instead of aborting
the run. -/
theorem importAllBatches_retry_ceiling (maxRetries : ℕ)
    (outcomes : String → ℕ → Option String) (m : ℕ → String) (ts : String)
    (bn : String) (rest : List String) (st : ImportState)
    (hnot : st.completedBatches.contains bn = false)
    (hfail : ∀ k, outcomes bn k = some (m k)) :
    importAllBatches maxRetries outcomes ts (bn :: rest) st =
      ((importAllBatches maxRetries outcomes ts rest
          { st with failedBatches := st.failedBatches ++ [⟨bn, m maxRetries, ts⟩],
                    currentBatch := none }).1,
       { st with currentBatch := some bn } ::
         { st with failedBatches := st.failedBatches ++ [⟨bn, m maxRetries, ts⟩],
                   currentBatch := none } ::
         (importAllBatches maxRetries outcomes ts rest
           { st with failedBatches := st.failedBatches ++ [⟨bn, m maxRetries, ts⟩],
                     currentBatch := none }).2.1,
       (bn, maxRetries + 1) ::
         (importAllBatches maxRetries outcomes ts rest
           { st with failedBatches := st.failedBatches ++ [⟨bn, m maxRetries, ts⟩],
                     currentBatch := none }).2.2) := by
  have hloop := attemptLoop_all_fail (outcomes bn) m hfail 0 maxRetries
  simp only [importAllBatches, hnot, Bool.false_eq_true, if_false, processBatch,
    hloop, Nat.zero_add, List.cons_append, List.nil_append]

/-- C3 witness input: the fresh initial state of `loadState` (lines 35–40). -/
def initialState : ImportState :=
  { startedAt := "2026-01-01T00:00:00.000Z", completedBatches := []
    failedBatches := [], currentBatch := none }

/-- C3 witness: with `maxRetries = 3` and a batch that always throws
`"boom"`, the driver makes exactly 4 attempts, records the failure, clears
the in-flight marker, and then proceeds to (and here completes) batch 02. -/
theorem importAllBatches_retry_ceiling_witness :
    importAllBatches 3
        (fun bn _ => if bn = "01" then some "boom" else none)
        "T" ["01", "02"] initialState =
      ({ startedAt := "2026-01-01T00:00:00.000Z", completedBatches := ["02"]
         failedBatches := [⟨"01", "boom", "T"⟩], currentBatch := none },
       [{ startedAt := "2026-01-01T00:00:00.000Z", completedBatches := []
          failedBatches := [], currentBatch := some "01" },
        { startedAt := "2026-01-01T00:00:00.000Z", completedBatches := []
          failedBatches := [⟨"01", "boom", "T"⟩], currentBatch := none },
        { startedAt := "2026-01-01T00:00:00.000Z", completedBatches := []
          failedBatches := [⟨"01", "boom", "T"⟩], currentBatch := some "02" },
        { startedAt := "2026-01-01T00:00:00.000Z", completedBatches := ["02"]
          failedBatches := [⟨"01", "boom", "T"⟩], currentBatch := none }],
       [("01", 4), ("02", 1)]) := by
  rw [importAllBatches_retry_ceiling 3
    (fun bn _ => if bn = "01" then some "boom" else none) (fun _ => "boom")
    "T" "01" ["02"] initialState (by decide) (fun _ => rfl)]
  decide

/-- Growth relation between successive persisted states: the completed and
failed collections of the earlier state are prefixes of the later one's
(nothing is ever removed or reordered, entries are only appended). -/
def statePrefixStep (s₁ s₂ : ImportState) : Prop :=
  s₁.completedBatches <+: s₂.completedBatches ∧
  s₁.failedBatches <+: s₂.failedBatches

/-- Processing one batch persists exactly two snapshots: the in-flight mark
and the terminal (completed or failed) state, each growing the state. -/
lemma processBatch_spec (maxRetries : ℕ) (outcome : ℕ → Option String)
    (ts : String) (st : ImportState) (bn : String) :
    ∃ st2, processBatch maxRetries outcome ts st bn =
        (st2, [{ st with currentBatch := some bn }, st2],
         (attemptLoop outcome 0 maxRetries).1) ∧
      statePrefixStep st { st with currentBatch := some bn } ∧
      statePrefixStep { st with currentBatch := some bn } st2 := by
  cases h : (attemptLoop outcome 0 maxRetries).2 with
  | none =>
    have hpb : processBatch maxRetries outcome ts st bn =
        ({ st with completedBatches := st.completedBatches ++ [bn],
                   currentBatch := none },
         [{ st with currentBatch := some bn },
          { st with completedBatches := st.completedBatches ++ [bn],
                    currentBatch := none }],
         (attemptLoop outcome 0 maxRetries).1) := by
      simp only [processBatch, h]
    exact ⟨_, hpb, ⟨List.prefix_rfl, List.prefix_rfl⟩,
      ⟨⟨[bn], rfl⟩, List.prefix_rfl⟩⟩
  | some e =>
    have hpb : processBatch maxRetries outcome ts st bn =
        ({ st with failedBatches := st.failedBatches ++ [⟨bn, e, ts⟩],
                   currentBatch := none },
         [{ st with currentBatch := some bn },
          { st with failedBatches := st.failedBatches ++ [⟨bn, e, ts⟩],
                    currentBatch := none }],
         (attemptLoop outcome 0 maxRetries).1) := by
      simp only [processBatch, h]
    exact ⟨_, hpb, ⟨List.prefix_rfl, List.prefix_rfl⟩,
      ⟨List.prefix_rfl, ⟨[⟨bn, e, ts⟩], rfl⟩⟩⟩

/-- C8.  State monotonicity: along the sequence of persisted snapshots of
one driver run, `completedBatches` only grows and `failedBatches` only
grows (in particular no batch is ever removed from either within a run),
and the driver's final state is the last persisted snapshot (every state
transition is persisted). -/
theorem importAllBatches_state_monotone (maxRetries : ℕ)
    (outcomes : String → ℕ → Option String) (ts : String)
    (batchNums : List String) (st : ImportState) :
    List.Chain' statePrefixStep
      (st :: (importAllBatches maxRetries outcomes ts batchNums st).2.1)
    ∧ st.completedBatches <+:
        (importAllBatches maxRetries outcomes ts batchNums st).1.completedBatches
    ∧ st.failedBatches <+:
        (importAllBatches maxRetries outcomes ts batchNums st).1.failedBatches
    ∧ (st :: (importAllBatches maxRetries outcomes ts batchNums st).2.1).getLast?
        = some (importAllBatches maxRetries outcomes ts batchNums st).1 := by
  induction batchNums generalizing st with
  | nil =>
    exact ⟨List.chain'_singleton st, List.prefix_rfl, List.prefix_rfl, rfl⟩
  | cons bn rest ih =>
    by_cases hskip : st.completedBatches.contains bn = true
    · have heq : importAllBatches maxRetries outcomes ts (bn :: rest) st =
          importAllBatches maxRetries outcomes ts rest st := by
        simp only [importAllBatches]
        rw [if_pos hskip]
      rw [heq]
      exact ih st
    · obtain ⟨st2, heq, h1, h2⟩ :=
        processBatch_spec maxRetries (outcomes bn) ts st bn
      have heq2 : importAllBatches maxRetries outcomes ts (bn :: rest) st =
          ((importAllBatches maxRetries outcomes ts rest st2).1,
           { st with currentBatch := some bn } :: st2 ::
             (importAllBatches maxRetries outcomes ts rest st2).2.1,
           (bn, (attemptLoop (outcomes bn) 0 maxRetries).1) ::
             (importAllBatches maxRetries outcomes ts rest st2).2.2) := by
        simp only [importAllBatches]
        rw [if_neg hskip, heq]
        simp
      rw [heq2]
      obtain ⟨ihchain, ihc, ihf, ihlast⟩ := ih st2
      refine ⟨?_, ?_, ?_, ?_⟩
      · rw [List.chain'_cons, List.chain'_cons]
        exact ⟨h1, h2, ihchain⟩
      · exact (h1.1.trans h2.1).trans ihc
      · exact (h1.2.trans h2.2).trans ihf
      · rw [List.getLast?_cons_cons]
        exact ihlast

/-! ## Dual token-bucket rate limiter (`bin/rateLimiter.js`)

Token arithmetic is over `ℚ` (exact arithmetic standing in for JS
numbers); timestamps are rational milliseconds.  The statistics counters
and logging do not affect admission and are not modelled. -/

/-- One token bucket (constructor, lines 21–33). -/
structure Bucket where
  capacity : ℚ
  tokens : ℚ
  refillRate : ℚ
  lastRefill : ℚ
deriving DecidableEq, Repr

/-- `refillBucket` (lines 50–57): recompute the token count from the
elapsed wall-clock time, capped at capacity. -/
def refillBucket (now : ℚ) (b : Bucket) : Bucket :=
  { b with
    tokens := min b.capacity (b.tokens + (now - b.lastRefill) / 1000 * b.refillRate)
    lastRefill := now }

/-- `waitForToken` (lines 62–85): refill; if fewer than one token is
available, suspend for `ceil((1 - tokens) / refillRate * 1000)` ms and
refill again; then consume one token.  Returns the updated bucket and the
time spent waiting (ms). -/
def waitForToken (now : ℚ) (b : Bucket) : Bucket × ℚ :=
  let b1 := refillBucket now b
  if b1.tokens < 1 then
    let waitTime : ℚ := ((⌈(1 - b1.tokens) / b1.refillRate * 1000⌉ : ℤ) : ℚ)
    let b2 := refillBucket (now + waitTime) b1
    ({ b2 with tokens := b2.tokens - 1 }, waitTime)
  else
    ({ b1 with tokens := b1.tokens - 1 }, 0)

/-- The rate limiter's mutable bucket state. -/
structure LimiterState where
  secondBucket : Bucket
  hourBucket : Bucket
deriving DecidableEq, Repr

/-- The constructor (lines 15–45): both buckets start full; the hour
bucket refills at `requestsPerHour / 3600` tokens per second. -/
def initLimiter (requestsPerSecond requestsPerHour now : ℚ) : LimiterState :=
  ⟨⟨requestsPerSecond, requestsPerSecond, requestsPerSecond, now⟩,
   ⟨requestsPerHour, requestsPerHour, requestsPerHour / 3600, now⟩⟩

/-- A JS error as inspected by `throttle`:
`error.status === 429 || error.statusCode === 429`. -/
structure JsError where
  status : Option ℕ
  statusCode : Option ℕ
  message : String
deriving DecidableEq, Repr

/-- The 429 test of line 106. -/
def is429 (e : JsError) : Bool :=
  e.status == some 429 || e.statusCode == some 429

/-- Outcome of one `throttle` call: final bucket state, the wall-clock
instant the wrapped operation started executing, the instant `throttle`
returns (or re-throws), and the propagated result. -/
structure ThrottleResult (α : Type) where
  state : LimiterState
  execStart : ℚ
  endTime : ℚ
  result : Except JsError α
deriving Repr

/-- `throttle(fn)` (lines 93–118): wait for a token from the second bucket
then from the hour bucket, execute `fn`, and on a 429 rejection suspend
60 000 ms, zero the second bucket, cap the hour bucket at half capacity and
re-raise.  `fn` maps its start time to a result and a duration (ms). -/
def throttle (st : LimiterState) (now : ℚ)
    (fn : ℚ → Except JsError α × ℚ) : ThrottleResult α :=
  let s := waitForToken now st.secondBucket
  let now1 := now + s.2
  let h := waitForToken now1 st.hourBucket
  let now2 := now1 + h.2
  let r := fn now2
  let tEnd := now2 + r.2
  match r.1 with
  | .ok a => ⟨⟨s.1, h.1⟩, now2, tEnd, .ok a⟩
  | .error e =>
    if is429 e then
      ⟨⟨{ s.1 with tokens := 0 },
        { h.1 with tokens := min h.1.tokens (h.1.capacity * (1 / 2)) }⟩,
       now2, tEnd + 60000, .error e⟩
    else ⟨⟨s.1, h.1⟩, now2, tEnd, .error e⟩

/-- `updateFromHeaders` (lines 157–178): clamp each bucket's token count
down to the reported remaining value; a missing/unparsable header
(`isNaN`) leaves the bucket untouched. -/
def updateFromHeaders (st : LimiterState)
    (secondRemaining hourRemaining : Option ℕ) : LimiterState :=
  let st1 := match secondRemaining with
    | some r => { st with secondBucket :=
        { st.secondBucket with tokens := min st.secondBucket.tokens (r : ℚ) } }
    | none => st
  match hourRemaining with
  | some r => { st1 with hourBucket :=
      { st1.hourBucket with tokens := min st1.hourBucket.tokens (r : ℚ) } }
  | none => st1

/-- Well-formedness of a bucket: at least one token of capacity, a positive
refill rate, and a token count within `[0, capacity]`. -/
def BucketWF (b : Bucket) : Prop :=
  1 ≤ b.capacity ∧ 0 < b.refillRate ∧ 0 ≤ b.tokens ∧ b.tokens ≤ b.capacity

lemma refillBucket_tokens_bounds {b : Bucket} {now : ℚ}
    (hWF : BucketWF b) (hnow : b.lastRefill ≤ now) :
    0 ≤ (refillBucket now b).tokens ∧ (refillBucket now b).tokens ≤ b.capacity := by
  obtain ⟨hcap, hrate, htok0, htokc⟩ := hWF
  constructor
  · simp only [refillBucket, le_min_iff]
    constructor
    · linarith
    · have : 0 ≤ (now - b.lastRefill) / 1000 * b.refillRate := by
        apply mul_nonneg
        · apply div_nonneg <;> linarith
        · linarith
      linarith
  · exact min_le_left _ _

lemma waitForToken_wait_nonneg {b : Bucket} {now : ℚ}
    (hrate : 0 < b.refillRate) : 0 ≤ (waitForToken now b).2 := by
  simp only [waitForToken]
  split
  · rename_i hlt
    simp only
    have h1 : (0 : ℚ) < (1 - (refillBucket now b).tokens) /
        (refillBucket now b).refillRate * 1000 := by
      apply mul_pos
      · apply div_pos
        · linarith
        · simpa [refillBucket] using hrate
      · norm_num
    have h2 := Int.le_ceil ((1 - (refillBucket now b).tokens) /
        (refillBucket now b).refillRate * 1000)
    exact le_trans (le_of_lt h1) h2
  · exact le_refl 0

lemma waitForToken_tokens_bounds {b : Bucket} {now : ℚ}
    (hWF : BucketWF b) (hnow : b.lastRefill ≤ now) :
    0 ≤ (waitForToken now b).1.tokens ∧
      (waitForToken now b).1.tokens ≤ b.capacity := by
  obtain ⟨hcap, hrate, htok0, htokc⟩ := hWF
  have hb1 := refillBucket_tokens_bounds ⟨hcap, hrate, htok0, htokc⟩ hnow
  simp only [waitForToken]
  split
  · rename_i hlt
    -- waiting branch: after the wait, the refilled count is at least 1
    set b1 := refillBucket now b with hb1def
    set w : ℚ := ((⌈(1 - b1.tokens) / b1.refillRate * 1000⌉ : ℤ) : ℚ) with hw
    have hrate1 : b1.refillRate = b.refillRate := rfl
    have hcap1 : b1.capacity = b.capacity := rfl
    have hceil : (1 - b1.tokens) / b1.refillRate * 1000 ≤ w := Int.le_ceil _
    have hgain : 1 - b1.tokens ≤ w / 1000 * b1.refillRate := by
      rw [hrate1]
      rw [hrate1] at hceil
      have h1000 : (0 : ℚ) < 1000 := by norm_num
      have step1 : (1 - b1.tokens) / b.refillRate ≤ w / 1000 :=
        (le_div_iff h1000).mpr (by linarith [hceil])
      have step2 : (1 - b1.tokens) / b.refillRate * b.refillRate ≤
          w / 1000 * b.refillRate :=
        mul_le_mul_of_nonneg_right step1 (le_of_lt hrate)
      have step3 : (1 - b1.tokens) / b.refillRate * b.refillRate = 1 - b1.tokens :=
        div_mul_cancel₀ _ (ne_of_gt hrate)
      linarith
    have htok2 : 1 ≤ (refillBucket (now + w) b1).tokens := by
      simp only [refillBucket, le_min_iff, hcap1]
      refine ⟨hcap, ?_⟩
      have : b1.lastRefill = now := rfl
      rw [this]
      have : now + w - now = w := by ring
      rw [this]
      linarith
    have htok2' : (refillBucket (now + w) b1).tokens ≤ b.capacity := by
      simp only [refillBucket, hcap1]
      exact min_le_left _ _
    constructor
    · simp only
      linarith
    · simp only
      linarith
  · rename_i hge
    push_neg at hge
    constructor
    · simp only
      linarith
    · simp only
      linarith [hb1.2]

/-- C6.  Token-bucket invariant: refilling, admitting (with its
wait-then-refill-again discipline), the 429 reset and the header clamp all
keep the token count within `[0, capacity]`; an admission deducts from the
freshly refilled count, immediately if at least one token is available and
otherwise only after suspending exactly
`ceil((1 - tokens)/refillRate * 1000)` ms and refilling again. -/
theorem rateLimiter_token_bucket_invariant (b : Bucket) (now : ℚ)
    (hWF : 1 ≤ b.capacity ∧ 0 < b.refillRate ∧ 0 ≤ b.tokens ∧
      b.tokens ≤ b.capacity)
    (hnow : b.lastRefill ≤ now) :
    (0 ≤ (refillBucket now b).tokens ∧ (refillBucket now b).tokens ≤ b.capacity)
    ∧ (1 ≤ (refillBucket now b).tokens →
        waitForToken now b =
          ({ refillBucket now b with
             tokens := (refillBucket now b).tokens - 1 }, 0))
    ∧ ((refillBucket now b).tokens < 1 →
        (waitForToken now b).2 =
          ((⌈(1 - (refillBucket now b).tokens) / b.refillRate * 1000⌉ : ℤ) : ℚ) ∧
        waitForToken now b =
          ({ refillBucket (now + (waitForToken now b).2) (refillBucket now b) with
             tokens := (refillBucket (now + (waitForToken now b).2)
               (refillBucket now b)).tokens - 1 },
           (waitForToken now b).2))
    ∧ (0 ≤ (waitForToken now b).1.tokens ∧
        (waitForToken now b).1.tokens ≤ b.capacity)
    ∧ (0 ≤ min b.tokens (b.capacity * (1 / 2)) ∧
        min b.tokens (b.capacity * (1 / 2)) ≤ b.capacity)
    ∧ (∀ r : ℕ, 0 ≤ min b.tokens (r : ℚ) ∧ min b.tokens (r : ℚ) ≤ b.capacity) := by
  obtain ⟨hcap, hrate, htok0, htokc⟩ := hWF
  refine ⟨refillBucket_tokens_bounds ⟨hcap, hrate, htok0, htokc⟩ hnow, ?_, ?_,
    waitForToken_tokens_bounds ⟨hcap, hrate, htok0, htokc⟩ hnow, ?_, ?_⟩
  · intro hge
    simp only [waitForToken]
    rw [if_neg (by linarith)]
  · intro hlt
    constructor
    · simp only [waitForToken]
      rw [if_pos hlt]
      rfl
    · have hw : (waitForToken now b).2 =
          ((⌈(1 - (refillBucket now b).tokens) / b.refillRate * 1000⌉ : ℤ) : ℚ) := by
        simp only [waitForToken]
        rw [if_pos hlt]
        rfl
      rw [hw]
      simp only [waitForToken]
      rw [if_pos hlt]
      rfl
  · constructor
    · simp only [le_min_iff]
      constructor
      · linarith
      · linarith
    · exact le_trans (min_le_left _ _) htokc
  · intro r
    constructor
    · simp only [le_min_iff]
      exact ⟨htok0, Nat.cast_nonneg r⟩
    · exact le_trans (min_le_left _ _) htokc

lemma waitForToken_capacity (now : ℚ) (b : Bucket) :
    (waitForToken now b).1.capacity = b.capacity := by
  simp only [waitForToken]
  split <;> rfl

/-- `throttle` always starts executing the wrapped operation after both
token waits, regardless of the operation's outcome. -/
lemma throttle_execStart {α : Type} (st : LimiterState) (now : ℚ)
    (fn : ℚ → Except JsError α × ℚ) :
    (throttle st now fn).execStart =
      now + (waitForToken now st.secondBucket).2 +
        (waitForToken (now + (waitForToken now st.secondBucket).2)
          st.hourBucket).2 := by
  simp only [throttle]
  cases hfr : (fn (now + (waitForToken now st.secondBucket).2 +
      (waitForToken (now + (waitForToken now st.secondBucket).2)
        st.hourBucket).2)).1 with
  | ok a => simp only [hfr]
  | error e =>
    simp only [hfr]
    by_cases h : is429 e = true
    · rw [if_pos h]
    · rw [if_neg h]

/-- The operation never executes before the admission instant. -/
lemma throttle_execStart_ge {α : Type} (st : LimiterState) (now : ℚ)
    (fn : ℚ → Except JsError α × ℚ)
    (h1 : 0 < st.secondBucket.refillRate)
    (h2 : 0 < st.hourBucket.refillRate) :
    now ≤ (throttle st now fn).execStart := by
  rw [throttle_execStart]
  have hw1 := @waitForToken_wait_nonneg st.secondBucket now h1
  have hw2 := @waitForToken_wait_nonneg st.hourBucket
    (now + (waitForToken now st.secondBucket).2) h2
  linarith

/-- The explicit form of `throttle` when the operation rejects with a 429. -/
lemma throttle_429_eq {α : Type} (st : LimiterState) (now : ℚ)
    (fn : ℚ → Except JsError α × ℚ) (e : JsError) (d : ℚ)
    (hfn : ∀ t, fn t = (Except.error e, d)) (h429 : is429 e = true) :
    throttle st now fn =
      ⟨⟨{ (waitForToken now st.secondBucket).1 with tokens := 0 },
        { (waitForToken (now + (waitForToken now st.secondBucket).2)
             st.hourBucket).1 with
          tokens := min (waitForToken (now + (waitForToken now st.secondBucket).2)
              st.hourBucket).1.tokens
            ((waitForToken (now + (waitForToken now st.secondBucket).2)
              st.hourBucket).1.capacity * (1 / 2)) }⟩,
       now + (waitForToken now st.secondBucket).2 +
         (waitForToken (now + (waitForToken now st.secondBucket).2)
           st.hourBucket).2,
       now + (waitForToken now st.secondBucket).2 +
         (waitForToken (now + (waitForToken now st.secondBucket).2)
           st.hourBucket).2 + d + 60000,
       Except.error e⟩ := by
  simp only [throttle, hfn, h429, if_true]

/-- C4.  429 handling: when the wrapped operation rejects with status 429,
the limiter re-raises the same error, zeroes the second bucket, caps the
hour bucket at 50% of its capacity without ever raising it, returns only
after the fixed 60 000 ms cooldown counted from the instant the error was
raised, and any subsequent admission (which can only start after `throttle`
returned) executes no sooner than cooldown-after-raise. -/
theorem throttle_429_cooldown {α : Type} (st : LimiterState) (now : ℚ)
    (fn : ℚ → Except JsError α × ℚ) (e : JsError) (d : ℚ)
    (hs : BucketWF st.secondBucket) (hh : BucketWF st.hourBucket)
    (hfn : ∀ t, fn t = (Except.error e, d)) (hd : 0 ≤ d)
    (h429 : is429 e = true) :
    (throttle st now fn).result = Except.error e
    ∧ (throttle st now fn).state.secondBucket.tokens = 0
    ∧ (throttle st now fn).state.hourBucket.tokens ≤
        st.hourBucket.capacity * (1 / 2)
    ∧ (throttle st now fn).state.hourBucket.tokens ≤
        (waitForToken (now + (waitForToken now st.secondBucket).2)
          st.hourBucket).1.tokens
    ∧ (throttle st now fn).endTime =
        ((throttle st now fn).execStart + d) + 60000
    ∧ now ≤ (throttle st now fn).execStart
    ∧ (∀ (st' : LimiterState) (now' : ℚ) (fn' : ℚ → Except JsError α × ℚ),
        0 < st'.secondBucket.refillRate → 0 < st'.hourBucket.refillRate →
        (throttle st now fn).endTime ≤ now' →
        ((throttle st now fn).execStart + d) + 60000 ≤
          (throttle st' now' fn').execStart) := by
  have heq := throttle_429_eq st now fn e d hfn h429
  have hcap : (waitForToken (now + (waitForToken now st.secondBucket).2)
      st.hourBucket).1.capacity = st.hourBucket.capacity :=
    waitForToken_capacity _ _
  refine ⟨?_, ?_, ?_, ?_, ?_, ?_, ?_⟩
  · rw [heq]
  · rw [heq]
  · rw [heq]
    simp only
    rw [hcap] at *
    exact min_le_right _ _
  · rw [heq]
    exact min_le_left _ _
  · rw [heq]
  · exact throttle_execStart_ge st now fn hs.2.1 hh.2.1
  · intro st' now' fn' h1 h2 hge
    have h3 := throttle_execStart_ge st' now' fn' h1 h2
    rw [heq] at hge
    rw [heq]
    simp only at hge ⊢
    linarith

/-- C6 witness: the invariant theorem applied to a full bucket of capacity
10 refilling at 10 tokens/s. -/
theorem rateLimiter_token_bucket_invariant_witness :
    0 ≤ (waitForToken 0 (⟨10, 10, 10, 0⟩ : Bucket)).1.tokens ∧
      (waitForToken 0 (⟨10, 10, 10, 0⟩ : Bucket)).1.tokens ≤ (10 : ℚ) :=
  (rateLimiter_token_bucket_invariant ⟨10, 10, 10, 0⟩ 0
    ⟨by decide, by decide, by decide, by decide⟩ (by decide)).2.2.2.1

/-- A rate-limit rejection as returned by the management API. -/
def err429 : JsError := ⟨some 429, none, "Too Many Requests"⟩

/-- C4 witness: the 429-cooldown theorem applied to a concrete limiter at
time 0 and an operation that rejects with a 429 after 5 ms. -/
theorem throttle_429_cooldown_witness :
    (throttle (α := Unit) (⟨⟨10, 10, 10, 0⟩, ⟨36000, 36000, 10, 0⟩⟩ : LimiterState) 0
        (fun _ => (Except.error err429, 5))).result = Except.error err429 ∧
    (throttle (α := Unit) (⟨⟨10, 10, 10, 0⟩, ⟨36000, 36000, 10, 0⟩⟩ : LimiterState) 0
        (fun _ => (Except.error err429, 5))).state.secondBucket.tokens = 0 ∧
    (throttle (α := Unit) (⟨⟨10, 10, 10, 0⟩, ⟨36000, 36000, 10, 0⟩⟩ : LimiterState) 0
        (fun _ => (Except.error err429, 5))).endTime =
      ((throttle (α := Unit) (⟨⟨10, 10, 10, 0⟩, ⟨36000, 36000, 10, 0⟩⟩ : LimiterState) 0
        (fun _ => (Except.error err429, 5))).execStart + 5) + 60000 :=
  let h := throttle_429_cooldown (α := Unit)
    ⟨⟨10, 10, 10, 0⟩, ⟨36000, 36000, 10, 0⟩⟩ 0
    (fun _ => (Except.error err429, 5)) err429 5
    ⟨by decide, by decide, by decide, by decide⟩
    ⟨by decide, by decide, by decide, by decide⟩
    (fun _ => rfl) (by decide) (by decide)
  ⟨h.1, h.2.1, h.2.2.2.2.1⟩

/-! ## Resume coordinator (`bin/resume.js` 66–96) -/

/-- One decimal digit, or `none` (the JS `parseInt` NaN path). -/
def digitVal (c : Char) : Option ℕ :=
  if '0' ≤ c ∧ c ≤ '9' then some (c.toNat - '0'.toNat) else none

/-- Accumulate leading decimal digits (`parseInt` stops at the first
non-digit). -/
def parseDigits : List Char → ℕ → ℕ
  | [], acc => acc
  | c :: cs, acc =>
    match digitVal c with
    | some d => parseDigits cs (acc * 10 + d)
    | none => acc

/-- `parseInt(s, 10)` on the repo's batch identifiers: `none` models NaN
(no leading digit). -/
def jsParseInt (s : String) : Option ℕ :=
  match s.toList with
  | [] => none
  | c :: _ => if (digitVal c).isSome then some (parseDigits s.toList 0) else none

/-- A batch identifier string as a number (`parseInt(b, 10)`); the repo's
identifiers are always zero-padded decimals, so the NaN default is moot. -/
def toBatchNumber (s : String) : ℕ := (jsParseInt s).getD 0

/-- JS truthiness of `state.currentBatch` (a string or `null`). -/
def jsTruthy : Option String → Bool
  | some s => !(s == "")
  | none => false

/-- Insertion into an ascending list: the building block of the embedding
of `failedBatchNumbers.sort((a, b) => a - b)`. -/
def insertSorted (n : ℕ) : List ℕ → List ℕ
  | [] => [n]
  | m :: ms => if n ≤ m then n :: m :: ms else m :: insertSorted n ms

/-- Ascending numeric sort (`Array.prototype.sort` with comparator
`(a, b) => a - b`): any comparison sort yields this unique ascending
rearrangement, so insertion sort is a faithful embedding. -/
def sortAsc (l : List ℕ) : List ℕ := l.foldr insertSorted []

/-- The resume decision (`resumeImport`, lines 66–96): first matching rule
of in-flight marker, earliest failed batch, next after highest completed —
with the all-done check guarding the third rule. -/
inductive ResumeDecision where
  | start (batchNumber : ℕ)
  | alreadyComplete
deriving DecidableEq, Repr

def resumeImport (st : ImportState) (totalBatches : ℕ) : ResumeDecision :=
  if jsTruthy st.currentBatch then
    .start (toBatchNumber (st.currentBatch.getD ""))
  else if !st.failedBatches.isEmpty then
    .start ((sortAsc (st.failedBatches.map (fun fb => toBatchNumber fb.batch))).headD 0)
  else
    let maxCompleted := (st.completedBatches.map toBatchNumber).foldl max 0
    if maxCompleted ≥ totalBatches then .alreadyComplete
    else .start (maxCompleted + 1)

lemma mem_insertSorted {m n : ℕ} {l : List ℕ} :
    m ∈ insertSorted n l ↔ m = n ∨ m ∈ l := by
  induction l with
  | nil => simp [insertSorted]
  | cons x xs ih =>
    simp only [insertSorted]
    split
    · simp
    · simp only [List.mem_cons, ih]
      tauto

lemma mem_sortAsc {m : ℕ} {l : List ℕ} : m ∈ sortAsc l ↔ m ∈ l := by
  induction l with
  | nil => simp [sortAsc]
  | cons x xs ih =>
    simp only [sortAsc, List.foldr_cons] at ih ⊢
    rw [mem_insertSorted, ih, List.mem_cons]

lemma insertSorted_pairwise {n : ℕ} {l : List ℕ}
    (h : List.Pairwise (· ≤ ·) l) :
    List.Pairwise (· ≤ ·) (insertSorted n l) := by
  induction l with
  | nil => simp [insertSorted]
  | cons x xs ih =>
    simp only [insertSorted]
    rw [List.pairwise_cons] at h
    split
    · rename_i hle
      rw [List.pairwise_cons]
      refine ⟨?_, List.pairwise_cons.mpr h⟩
      intro y hy
      rcases List.mem_cons.mp hy with rfl | hy
      · exact hle
      · exact le_trans hle (h.1 y hy)
    · rename_i hgt
      push_neg at hgt
      rw [List.pairwise_cons]
      refine ⟨?_, ih h.2⟩
      intro y hy
      rcases mem_insertSorted.mp hy with rfl | hy
      · exact le_of_lt hgt
      · exact h.1 y hy
lemma sortAsc_pairwise (l : List ℕ) : List.Pairwise (· ≤ ·) (sortAsc l) := by
  induction l with
  | nil => simp [sortAsc]
  | cons x xs ih => exact insertSorted_pairwise ih

lemma sortAsc_ne_nil {l : List ℕ} (h : l ≠ []) : sortAsc l ≠ [] := by
  intro hnil
  match l, h with
  | x :: xs, _ =>
    have : x ∈ sortAsc (x :: xs) := mem_sortAsc.mpr (List.mem_cons_self x xs)
    rw [hnil] at this
    simp at this

/-- C5.  Resume decision order: (1) a set in-flight marker wins and the
restart point is its parsed batch number; (2) else with any failed batches
the restart point is the lowest-numbered failed batch; (3) else, if the
highest completed batch number has reached the manifest's total the
migration is reported complete and nothing is started; (4) else the restart
point is one past the highest-numbered completed batch. -/
theorem resumeImport_decision_order (st : ImportState) (total : ℕ) :
    (jsTruthy st.currentBatch = true →
      resumeImport st total = .start (toBatchNumber (st.currentBatch.getD "")))
    ∧ (jsTruthy st.currentBatch = false → st.failedBatches ≠ [] →
        ∃ m, resumeImport st total = .start m ∧
          m ∈ st.failedBatches.map (fun fb => toBatchNumber fb.batch) ∧
          ∀ n ∈ st.failedBatches.map (fun fb => toBatchNumber fb.batch), m ≤ n)
    ∧ (jsTruthy st.currentBatch = false → st.failedBatches = [] →
        total ≤ (st.completedBatches.map toBatchNumber).foldl max 0 →
        resumeImport st total = .alreadyComplete)
    ∧ (jsTruthy st.currentBatch = false → st.failedBatches = [] →
        (st.completedBatches.map toBatchNumber).foldl max 0 < total →
        resumeImport st total =
          .start ((st.completedBatches.map toBatchNumber).foldl max 0 + 1)) := by
  refine ⟨?_, ?_, ?_, ?_⟩
  · intro htruthy
    simp only [resumeImport]
    rw [if_pos htruthy]
  · intro htruthy hfailed
    set nums := st.failedBatches.map (fun fb => toBatchNumber fb.batch) with hnums
    have hnnil : nums ≠ [] := by
      simp [hnums, hfailed]
    have hsortnil : sortAsc nums ≠ [] := sortAsc_ne_nil hnnil
    match hsort : sortAsc nums, hsortnil with
    | m :: ms, _ =>
      refine ⟨m, ?_, ?_, ?_⟩
      · simp only [resumeImport]
        rw [if_neg (by simp [htruthy]), if_pos (by simp [hfailed]), ← hnums, hsort]
        rfl
      · have : m ∈ sortAsc nums := by rw [hsort]; exact List.mem_cons_self m ms
        exact mem_sortAsc.mp this
      · intro n hn
        have hmem : n ∈ sortAsc nums := mem_sortAsc.mpr hn
        rw [hsort] at hmem
        rcases List.mem_cons.mp hmem with rfl | hmem
        · exact le_refl n
        · have := sortAsc_pairwise nums
          rw [hsort, List.pairwise_cons] at this
          exact this.1 n hmem
  · intro htruthy hfailed hge
    simp only [resumeImport]
    rw [if_neg (by simp [htruthy]), if_neg (by simp [hfailed])]
    rw [if_pos (by omega)]
  · intro htruthy hfailed hlt
    simp only [resumeImport]
    rw [if_neg (by simp [htruthy]), if_neg (by simp [hfailed])]
    rw [if_neg (by omega)]

/-- C5 witness: state `{completedBatches: ["01","02"], failedBatches: [],
currentBatch: "03"}` with 4 total batches restarts at batch 3 (rule 1), not
batch 4. -/
theorem resumeImport_decision_order_witness :
    jsTruthy (some "03") = true ∧
    resumeImport ⟨"S", ["01", "02"], [], some "03"⟩ 4 = .start 3 := by
  refine ⟨by decide, ?_⟩
  have h := (resumeImport_decision_order ⟨"S", ["01", "02"], [], some "03"⟩ 4).1
    (by decide)
  rw [h]
  decide

/-! ## State persistence (`bin/import.js` 44–46)

`saveState` is `fs.writeFileSync(STATE_FILE, JSON.stringify(state, null, 2))`:
one plain in-place write of the whole serialized document.  We model the
file-system effect of a save as a list of file operations (write or
rename), a crash as stopping between operations or part-way through a
write (leaving a proper prefix of the written bytes), and ask which
contents a reader of the state file can then observe. -/

/-- A JSON string literal (the repo's ids, messages and timestamps need no
escaping). -/
def jsonString (s : String) : String := "\"" ++ s ++ "\""

/-- One `failedBatches` element as laid out by `JSON.stringify(-, null, 2)`
at nesting depth 2. -/
def serializeFailed (fb : FailedRecord) : String :=
  "\x7b\n      \"batch\": " ++ jsonString fb.batch ++
  ",\n      \"error\": " ++ jsonString fb.error ++
  ",\n      \"timestamp\": " ++ jsonString fb.timestamp ++ "\n    \x7d"

/-- `JSON.stringify(state, null, 2)`. -/
def serializeState (st : ImportState) : String :=
  "\x7b\n  \"startedAt\": " ++ jsonString st.startedAt ++
  ",\n  \"completedBatches\": " ++
  (match st.completedBatches with
   | [] => "[]"
   | l => "[\n" ++ String.intercalate ",\n" (l.map (fun x => "    " ++ jsonString x)) ++
       "\n  ]") ++
  ",\n  \"failedBatches\": " ++
  (match st.failedBatches with
   | [] => "[]"
   | l => "[\n" ++ String.intercalate ",\n" (l.map (fun fb => "    " ++ serializeFailed fb)) ++
       "\n  ]") ++
  ",\n  \"currentBatch\": " ++
  (match st.currentBatch with
   | none => "null"
   | some x => jsonString x) ++ "\n\x7d"

/-- A file-system operation a save routine may perform. -/
inductive FsOp where
  | write (path : String) (contents : String)
  | rename (src dst : String)
deriving DecidableEq, Repr

/-- `saveState(state)` (lines 44–46): a single in-place whole-file write;
no temp file, no rename. -/
def saveState (stateFile : String) (st : ImportState) : List FsOp :=
  [FsOp.write stateFile (serializeState st)]

/-- A tiny file system: newest-first association list; `none` = deleted. -/
def Fs : Type := List (String × Option String)

def fsSet (fs : Fs) (p : String) (v : Option String) : Fs := (p, v) :: fs

def fsGet (fs : Fs) (p : String) : Option String :=
  match fs.find? (fun e => e.1 = p) with
  | some e => e.2
  | none => none

def applyOp (fs : Fs) : FsOp → Fs
  | .write p c => fsSet fs p (some c)
  | .rename src dst =>
    match fsGet fs src with
    | some c => fsSet (fsSet fs dst (some c)) src none
    | none => fs

def applyOps (fs : Fs) (ops : List FsOp) : Fs := ops.foldl applyOp fs

/-- The proper prefixes of a string: what a crash part-way through a write
can leave on disk. -/
def strPrefixes (c : String) : List String :=
  (List.range c.length).map (fun k => String.mk (c.toList.take k))

/-- File systems observable if the process dies in the middle of a single
operation: a write can be torn (any proper prefix), a rename is atomic. -/
def midCrashStates (fs : Fs) : FsOp → List Fs
  | .write p c => (strPrefixes c).map (fun pre => fsSet fs p (some pre))
  | .rename _ _ => []

/-- All file systems a crash-interrupting reader can observe while the
operation list executes (before, torn-mid-write, between, after). -/
def crashStates (fs : Fs) : List FsOp → List Fs
  | [] => [fs]
  | op :: ops => fs :: (midCrashStates fs op ++ crashStates (applyOp fs op) ops)

/-- A save is atomic for the state file when every crash observation of
that file is either the old document or the complete new one. -/
def atomicSave (stateFile old new : String) (ops : List FsOp) : Prop :=
  ∀ v ∈ crashStates (fsSet [] stateFile (some old)) ops,
    fsGet v stateFile = some old ∨ fsGet v stateFile = some new

/-- C7 counterexample: `saveState` is a plain in-place write, so a crash in
the middle of it exposes a half-written document — it is not
write-whole-file-then-rename or equivalent. -/
theorem saveState_not_atomic_counterexample :
    ¬ atomicSave "import-state.json" "OLD" (serializeState initialState)
        (saveState "import-state.json" initialState) := by
  unfold atomicSave
  decide

/-- C7 (amended).  Every mutation rewrites the full state document: a save
is exactly one whole-file write of the complete serialized state to the
state-file path (no partial updates, no rename step), and an uninterrupted
save leaves precisely the new document; but because the write is in place,
a crash-interrupting reader may observe a half-written document (see the
counterexample). -/
theorem saveState_whole_file_rewrite (stateFile : String) (st : ImportState)
    (fs : Fs) :
    saveState stateFile st = [FsOp.write stateFile (serializeState st)] ∧
    fsGet (applyOps fs (saveState stateFile st)) stateFile =
      some (serializeState st) := by
  refine ⟨rfl, ?_⟩
  show fsGet (fsSet fs stateFile (some (serializeState st))) stateFile = _
  simp only [fsGet, fsSet]
  rw [List.find?_cons_of_pos _ (by simp)]

/-! ## Remote-call admission structure of `importBatch` (`bin/import.js` 62–375)

Each `rateLimiter.throttle(throttledCall)` in the source admits one group
of remote calls; the group's calls are determined by the configuration
flags and by what the remote side reports (existence checks, asset
processing).  We model a batch import (with the rate limiter enabled) as
the list of call groups it performs, in order; `plain` marks calls that
execute outside any throttle.  Per-item try/catch failure handling only
truncates the tail of an item's groups and does not change which calls are
admitted, so the non-throwing path is modelled. -/

inductive RemoteCall where
  | getSpace | getEnvironment
  | getLocales | createLocale
  | createTag
  | createContentType | publishContentType
  | getContentType | getEditorInterface | updateEditorInterface
  | getAsset | createAsset | processAsset | publishAsset
  | getEntry | createEntry | publishEntry
deriving DecidableEq, Repr

inductive CallGroup where
  /-- remote calls executed outside any throttle wrapper -/
  | plain (calls : List RemoteCall)
  /-- remote calls covered by one rate-limiter admission -/
  | admitted (calls : List RemoteCall)
deriving DecidableEq, Repr

def CallGroup.calls : CallGroup → List RemoteCall
  | .plain cs => cs
  | .admitted cs => cs

def CallGroup.isAdmitted : CallGroup → Bool
  | .plain _ => false
  | .admitted _ => true

/-- The locale `throttledCall` (lines 116–125): `getLocales`, then
`createLocale` only when the locale does not exist yet. -/
def localeGroup (alreadyExists : Bool) : CallGroup :=
  .admitted (.getLocales :: if alreadyExists then [] else [.createLocale])

/-- The tag `throttledCall` (lines 145–147). -/
def tagGroup : CallGroup := .admitted [.createTag]

/-- The content-type `throttledCall` (lines 169–175): create, then publish
unless publishing is skipped. -/
def contentTypeGroup (skipContentPublishing : Bool) : CallGroup :=
  .admitted (.createContentType ::
    if skipContentPublishing then [] else [.publishContentType])

/-- The editor-interface `throttledCall` (lines 195–201): fetch the content
type, fetch its editor interface, update it. -/
def editorInterfaceGroup : CallGroup :=
  .admitted [.getContentType, .getEditorInterface, .updateEditorInterface]

/-- What one asset's import performs (lines 222–299): the create/fetch
admission, then when uploads are enabled one `processForAllLocales`
admission, one `getAsset` admission per poll-loop iteration, and a
get-then-publish admission when publishing is enabled and processing
finished within the attempt budget. -/
structure AssetScenario where
  alreadyExists : Bool
  pollIterations : ℕ
  processedAtEnd : Bool
deriving Repr

/-- Import options relevant to the call structure (`importOptions`). -/
structure ImportOptions where
  skipContentPublishing : Bool
  skipAssetUpdates : Bool
  skipContentUpdates : Bool
  uploadAssets : Bool
deriving DecidableEq, Repr

def assetGroups (opts : ImportOptions) (s : AssetScenario) : List CallGroup :=
  .admitted (if opts.skipAssetUpdates then
      .getAsset :: (if s.alreadyExists then [] else [.createAsset])
    else [.createAsset]) ::
  (if opts.uploadAssets then
     .admitted [.processAsset] ::
       (List.replicate s.pollIterations (.admitted [.getAsset]) ++
        (if !opts.skipContentPublishing && s.processedAtEnd then
           [.admitted [.getAsset, .publishAsset]]
         else []))
   else [])

/-- What one entry's import performs (lines 310–353): the create/fetch
admission, then a publish admission unless publishing is skipped. -/
def entryGroups (opts : ImportOptions) (alreadyExists : Bool) : List CallGroup :=
  .admitted (if opts.skipContentUpdates then
      .getEntry :: (if alreadyExists then [] else [.createEntry])
    else [.createEntry]) ::
  (if opts.skipContentPublishing then [] else [.admitted [.publishEntry]])

/-- The call groups of one `importBatch` run with the rate limiter enabled:
the un-throttled session opening `client.getSpace` / `space.getEnvironment`
(lines 103–104), then the content model (first batch with content types
only, lines 108–215), then assets, then entries. -/
def importBatchTrace (opts : ImportOptions) (importsContentModel : Bool)
    (localeExists : List Bool) (numTags numContentTypes numEditorInterfaces : ℕ)
    (assetScenarios : List AssetScenario) (entryExists : List Bool) :
    List CallGroup :=
  .plain [.getSpace] :: .plain [.getEnvironment] ::
  ((if importsContentModel then
      localeExists.map localeGroup ++ List.replicate numTags tagGroup ++
      List.replicate numContentTypes (contentTypeGroup opts.skipContentPublishing) ++
      List.replicate numEditorInterfaces editorInterfaceGroup
    else []) ++
   (assetScenarios.map (assetGroups opts)).flatten ++
   (entryExists.map (entryGroups opts)).flatten)

/-- C9 counterexample: in a concrete batch import, not every remote call is
individually admitted — the session-opening calls run outside any throttle
(and several admissions cover more than one remote call). -/
theorem importBatch_admission_counterexample :
    ¬ (∀ g ∈ importBatchTrace ⟨false, false, false, true⟩ true [true] 1 1 1
          [⟨false, 1, true⟩] [false],
        g.isAdmitted = true ∧ g.calls.length = 1) := by
  decide

/-- A group respecting the amended admission discipline: it is throttled
and covers one to three remote calls. -/
def goodGroup (g : CallGroup) : Prop :=
  g.isAdmitted = true ∧ 1 ≤ g.calls.length ∧ g.calls.length ≤ 3

instance (g : CallGroup) : Decidable (goodGroup g) :=
  inferInstanceAs
    (Decidable (g.isAdmitted = true ∧ 1 ≤ g.calls.length ∧ g.calls.length ≤ 3))

lemma goodGroup_localeGroup (b : Bool) : goodGroup (localeGroup b) := by
  cases b <;> decide

lemma goodGroup_contentTypeGroup (b : Bool) : goodGroup (contentTypeGroup b) := by
  cases b <;> decide

lemma goodGroup_assetGroups (opts : ImportOptions) (s : AssetScenario) :
    ∀ g ∈ assetGroups opts s, goodGroup g := by
  intro g hg
  simp only [assetGroups, List.mem_cons] at hg
  rcases hg with rfl | hg
  · cases hsk : opts.skipAssetUpdates <;> cases hae : s.alreadyExists <;>
      simp [hsk, hae] <;> decide
  · rcases hup : opts.uploadAssets with _ | _
    · rw [hup] at hg
      simp at hg
    · rw [hup] at hg
      simp only [if_true, List.mem_cons] at hg
      rcases hg with rfl | hg
      · decide
      · rcases List.mem_append.mp hg with hg | hg
        · have := List.eq_of_mem_replicate hg
          subst this
          decide
        · split at hg
          · rw [List.mem_singleton] at hg
            subst hg
            decide
          · simp at hg

lemma goodGroup_entryGroups (opts : ImportOptions) (b : Bool) :
    ∀ g ∈ entryGroups opts b, goodGroup g := by
  intro g hg
  simp only [entryGroups, List.mem_cons] at hg
  rcases hg with rfl | hg
  · cases hsk : opts.skipContentUpdates <;> cases hae : b <;>
      simp [hsk, hae] <;> decide
  · split at hg
    · simp at hg
    · rw [List.mem_singleton] at hg
      subst hg
      decide

/-- C9 (amended).  Admission discipline: apart from the two un-throttled
session-opening calls (`getSpace`, `getEnvironment`) that begin every
batch import, every call group is executed under exactly one rate-limiter
admission, and an admission covers between one and three remote calls
(existence-check + create, create + publish, get + publish, and the
three-call editor-interface update) — so not every remote call costs
exactly one admission. -/
theorem importBatch_admission_discipline (opts : ImportOptions)
    (importsContentModel : Bool) (localeExists : List Bool)
    (numTags numContentTypes numEditorInterfaces : ℕ)
    (assetScenarios : List AssetScenario) (entryExists : List Bool) :
    importBatchTrace opts importsContentModel localeExists numTags
        numContentTypes numEditorInterfaces assetScenarios entryExists =
      CallGroup.plain [.getSpace] :: CallGroup.plain [.getEnvironment] ::
        (importBatchTrace opts importsContentModel localeExists numTags
          numContentTypes numEditorInterfaces assetScenarios entryExists).drop 2
    ∧ ∀ g ∈ (importBatchTrace opts importsContentModel localeExists numTags
        numContentTypes numEditorInterfaces assetScenarios entryExists).drop 2,
        goodGroup g := by
  constructor
  · rfl
  · intro g hg
    simp only [importBatchTrace, List.drop_succ_cons, List.drop_zero] at hg
    rcases List.mem_append.mp hg with hcm | hae
    · rcases List.mem_append.mp hcm with hcm | hentry
      · split at hcm
        · rcases List.mem_append.mp hcm with h | h
          · rcases List.mem_append.mp h with h | h
            · rcases List.mem_append.mp h with h | h
              · obtain ⟨b, _, rfl⟩ := List.mem_map.mp h
                exact goodGroup_localeGroup b
              · rw [List.eq_of_mem_replicate h]
                decide
            · rw [List.eq_of_mem_replicate h]
              exact goodGroup_contentTypeGroup _
          · rw [List.eq_of_mem_replicate h]
            decide
        · simp at hcm
      · obtain ⟨gs, hgs, hmem⟩ := List.mem_flatten.mp hentry
        obtain ⟨s, _, rfl⟩ := List.mem_map.mp hgs
        exact goodGroup_assetGroups opts s g hmem
    · obtain ⟨gs, hgs, hmem⟩ := List.mem_flatten.mp hae
      obtain ⟨b, _, rfl⟩ := List.mem_map.mp hgs
      exact goodGroup_entryGroups opts b g hmem

/-- C9 witness: the amended admission-discipline theorem applied to the
concrete batch of the counterexample. -/
theorem importBatch_admission_discipline_witness :
    ∀ g ∈ (importBatchTrace ⟨false, false, false, true⟩ true [true] 1 1 1
        [⟨false, 1, true⟩] [false]).drop 2, goodGroup g :=
  (importBatch_admission_discipline ⟨false, false, false, true⟩ true [true] 1 1 1
    [⟨false, 1, true⟩] [false]).2

/-! ## Draft-cleanup link scrubbing (`bin/cleanup-drafts.js` 199–241)

The removal sets (`entriesToRemove`, `assetsToRemove`) are computed by the
draft analysis of lines 199–204; the link cleanup of lines 213–241 is
parametrised by them here.  It examines only a field's direct locale value
and the direct elements of an array locale value — unlike the
partitioner's `getAssetReferencesFromEntry`, which recurses to arbitrary
depth. -/

/-- The link test of lines 220–223 / 231–234: a `Link` whose target was
removed. -/
def removedLink (entriesToRemove assetsToRemove : List String) :
    JVal → Bool
  | .link lt i =>
    (lt == "Entry" && entriesToRemove.contains i) ||
    (lt == "Asset" && assetsToRemove.contains i)
  | _ => false

/-- Cleanup of one locale value: a removed link deletes the binding
(`delete field[locale]`), an array keeps only its direct elements that are
not removed links, anything else is kept as is. -/
def cleanValue (rmE rmA : List String) (v : JVal) : Option JVal :=
  if removedLink rmE rmA v then none
  else
    match v with
    | .arr items => some (.arr (items.filter (fun it => !removedLink rmE rmA it)))
    | _ => some v

/-- Cleanup of one entry's fields (lines 213–241). -/
def cleanEntry (rmE rmA : List String) (e : Entry) : Entry :=
  { e with fields := e.fields.map (fun fl =>
      (fl.1, fl.2.filterMap (fun lv =>
        (cleanValue rmE rmA lv.2).map (fun v => (lv.1, v))))) }

/-- The `entries` collection of `cleanedData` (lines 206–241): entries with
removed ids dropped, every remaining entry scrubbed. -/
def cleanedEntries (rmE rmA : List String) (entries : List Entry) : List Entry :=
  (entries.filter (fun e => !rmE.contains e.id)).map (cleanEntry rmE rmA)

/-- An entry whose only link to the removed asset `gone` sits one level
deeper than the cleanup examines (an array inside an array). -/
def deepEntry : Entry :=
  ⟨"d", "ct", [("f", [("en", JVal.arr [JVal.arr [JVal.link "Asset" "gone"]])])]⟩

/-- C10.  Shallow link cleanup: in the cleaned export no remaining entry
has a removed-link as a direct locale value or as a direct element of an
array locale value; but links nested deeper are not examined — in
`deepEntry` the cleanup leaves a link to the removed asset `gone`
untouched, while the partitioner's arbitrary-depth traversal does find
it. -/
theorem cleanedEntries_shallow_link_cleanup (rmE rmA : List String)
    (entries : List Entry) :
    (∀ e ∈ cleanedEntries rmE rmA entries, ∀ fl ∈ e.fields, ∀ lv ∈ fl.2,
      removedLink rmE rmA lv.2 = false ∧
      ∀ items, lv.2 = JVal.arr items →
        ∀ it ∈ items, removedLink rmE rmA it = false)
    ∧ cleanedEntries [] ["gone"] [deepEntry] = [deepEntry]
    ∧ removedLink [] ["gone"] (JVal.link "Asset" "gone") = true
    ∧ "gone" ∈ getAssetReferencesFromEntry deepEntry := by
  refine ⟨?_, rfl, by decide, by decide⟩
  intro e he fl hfl lv hlv
  obtain ⟨e₀, _, rfl⟩ := List.mem_map.mp he
  simp only [cleanEntry] at hfl
  obtain ⟨fl₀, _, rfl⟩ := List.mem_map.mp hfl
  simp only at hlv
  obtain ⟨lv₀, _, hcv⟩ := List.mem_filterMap.mp hlv
  match hclean : cleanValue rmE rmA lv₀.2 with
  | none => rw [hclean] at hcv; simp at hcv
  | some v =>
    rw [hclean] at hcv
    simp only [Option.map_some', Option.some.injEq] at hcv
    subst hcv
    simp only
    unfold cleanValue at hclean
    split at hclean
    · simp at hclean
    · rename_i hnotrm
      match hv : lv₀.2, hclean with
      | .arr items, hclean =>
        simp only [Option.some.injEq] at hclean
        subst hclean
        constructor
        · rfl
        · intro items' hitems it hit
          simp only [JVal.arr.injEq] at hitems
          subst hitems
          have := (List.mem_filter.mp hit).2
          simpa using this
      | .scalar, hclean =>
        simp only [Option.some.injEq] at hclean
        subst hclean
        exact ⟨rfl, by intro items h; cases h⟩
      | .link lt i, hclean =>
        simp only [Option.some.injEq] at hclean
        subst hclean
        have h2 : removedLink rmE rmA (JVal.link lt i) = false := by
          rw [← hv]
          simpa using hnotrm
        exact ⟨h2, by intro items h; cases h⟩
      | .obj kvs, hclean =>
        simp only [Option.some.injEq] at hclean
        subst hclean
        exact ⟨rfl, by intro items h; cases h⟩

/-- C10 witness: the theorem applied to concrete removal sets and entries
(the counterexample entry is kept and its direct level is clean). -/
theorem cleanedEntries_shallow_link_cleanup_witness :
    ∀ e ∈ cleanedEntries [] ["gone"] [deepEntry], ∀ fl ∈ e.fields,
      ∀ lv ∈ fl.2, removedLink [] ["gone"] lv.2 = false ∧
        ∀ items, lv.2 = JVal.arr items →
          ∀ it ∈ items, removedLink [] ["gone"] it = false :=
  (cleanedEntries_shallow_link_cleanup [] ["gone"] [deepEntry]).1

end Migrator
